import Mathlib

/-!
Verification of the `sknlp` training-loop core (`sknlp/base.py`) and dataset
preprocessing pipeline (`sknlp/data/dataset.py`).

The Python code is shallowly embedded: strings are Lean `String`s manipulated
at the character-list level (Python `str.split`, slicing and `str.join` are
reimplemented by structural recursion so that every definition evaluates by
kernel reduction), floating-point quantities are idealized as `ℚ` (or `ℝ`
where a square root is taken), Python `dict`s built by `zip` are association
lists, and a `KeyError` is an `Except.error` carrying the missing key.
-/

namespace Sknlp

/-! ## Python string primitives

Models of the Python `str` operations the repository uses: `s.split(sep)` for
a single-character separator, `s[:n]` slicing, and `sep.join(fields)`.
-/

/-- Accumulator-style worker for `splitOnChar`; `acc` holds the current field
reversed, mirroring the left-to-right scan Python performs. -/
def splitCharsAux (sep : Char) : List Char → List Char → List (List Char)
  | [], acc => [acc.reverse]
  | c :: cs, acc =>
    if c = sep then acc.reverse :: splitCharsAux sep cs []
    else splitCharsAux sep cs (c :: acc)

/-- Python `s.split(sep)` for a one-character separator `sep`: always returns
at least one field, `"".split(sep) == ['']`, and a trailing separator yields a
trailing empty field. -/
def splitOnChar (sep : Char) (s : String) : List String :=
  (splitCharsAux sep s.toList []).map (fun cs => String.mk cs)

/-- Python `s[:n]` (string slice of the first `n` characters). -/
def strTake (n : ℕ) (s : String) : String :=
  String.mk (s.toList.take n)

/-- Python `s[:max_length]` where `max_length : Optional[int]`; slicing with
`None` is the identity. -/
def strTruncate : Option ℕ → String → String
  | none, s => s
  | some n, s => strTake n s

/-- Python `lst[:max_length]` on lists, `max_length : Optional[int]`. -/
def listTruncate : Option ℕ → List α → List α
  | none, l => l
  | some n, l => l.take n

/-- Python `sep.join(fields)` for a one-character separator. -/
def joinChar (sep : Char) : List String → String
  | [] => ""
  | [x] => x
  | x :: xs => x ++ String.mk [sep] ++ joinChar sep xs

/-- Boolean lexicographic comparison of character lists by code point;
the order Python's `list.sort()` uses on strings.  (`String.le` in core Lean
does not reduce in the kernel, so the same order is defined by structural
recursion.) -/
def lexLeb : List Char → List Char → Bool
  | [], _ => true
  | _ :: _, [] => false
  | a :: as, b :: bs => if a < b then true else if b < a then false else lexLeb as bs

/-- Lexicographic order on strings (Python string comparison). -/
def strLe (s t : String) : Prop := lexLeb s.toList t.toList = true

instance : DecidableRel strLe := fun s t => by unfold strLe; infer_instance

/-! ## Rows and the dataset construction scan (`dataset.py`)

A raw row is a tab-delimited string; `_split_row` splits it on `'\t'`,
`SupervisedNLPDataset.__init__` reads `text, label = self._split_row(row)[:2]`
(so a well-formed row has at least two fields).
-/

/-- `NLPDataset._split_row`: split a raw row on tab. -/
def rowFields (row : String) : List String := splitOnChar '\t' row

/-- The text field of a row (field 0; `split` always yields at least one
field, so no default is ever taken). -/
def rowText (row : String) : String := (rowFields row).headD ""

/-- The label field of a row (field 1); the default is only reachable for a
malformed row on which the Python code would raise instead. -/
def rowLabel (row : String) : String := (rowFields row).getD 1 ""

/-- The default segmenter: Python `list` applied to a string, i.e. its
characters as one-character strings. -/
def charSegmenter (s : String) : List String :=
  s.toList.map (fun c => String.mk [c])

/-- All tokens fed to `token_counter` during the construction scan when no
vocabulary is injected: `words = self._segmenter(text)` for each row — note
the text is NOT truncated here. -/
def buildTokenList (seg : String → List String) (rows : List String) : List String :=
  rows.flatMap (fun r => seg (rowText r))

/-- Modelled from the spec: the `Vocab` class (module `sknlp.vocab`) is not
under `src/`; per the spec it is "built from a frequency counter over all
tokens seen in one corpus pass", so its token set is the set of distinct keys
of `token_counter`. -/
def vocabTokens (seg : String → List String) (rows : List String) : List String :=
  (buildTokenList seg rows).dedup

/-- `self._text_lengths` as recorded during the construction scan when no
vocabulary is injected: `len(words)` per row, on the untruncated text. -/
def buildTextLengths (seg : String → List String) (rows : List String) : List ℕ :=
  rows.map (fun r => (seg (rowText r)).length)

/-- The token sequence `NLPDataset.preprocess_text` encodes:
`self._segmenter(text[:self._max_length])`.  The subsequent vocabulary id
lookup (`self._vocab[...]`) is elementwise, so token identity and count are
decided here. -/
def preprocessTextTokens (seg : String → List String) (maxLen : Option ℕ)
    (text : String) : List String :=
  seg (strTruncate maxLen text)

/-- The pipe-delimited label components of one row:
`labels = label.split('|')`. -/
def labelComponentsRow (row : String) : List String := splitOnChar '|' (rowLabel row)

/-- Everything fed to `label_counter` over the whole scan. -/
def allLabelComponents (rows : List String) : List String :=
  rows.flatMap labelComponentsRow

/-- `label_list`: the distinct keys of `label_counter` after
`del label_counter['']`, then `label_list.sort()`.  (The pre-sort key order is
irrelevant, so the counter's keys are taken as `dedup` of the scanned
components.) -/
def labelList (rows : List String) : List String :=
  List.insertionSort strLe (((allLabelComponents rows).dedup).filter (fun s => s != ""))

/-- `self._label2idx = dict(zip(label_list, range(len(label_list))))`. -/
def label2idxOf (rows : List String) : List (String × ℕ) :=
  (labelList rows).zip (List.range (labelList rows).length)

/-- `self._idx2label = {v: k for k, v in self._label2idx.items()}`. -/
def idx2labelOf (rows : List String) : List (ℕ × String) :=
  (label2idxOf rows).map (fun p => (p.2, p.1))

/-! ## Label encoding (`preprocess_label` variants) -/

/-- Evaluate the comprehension `[self._label2idx[l] for l in ls]` left to
right: the first component missing from the index raises `KeyError(l)`. -/
def mapLookup (l2i : List (String × ℕ)) : List String → Except String (List ℕ)
  | [] => Except.ok []
  | l :: ls =>
    match l2i.lookup l with
    | none => Except.error l
    | some i =>
      match mapLookup l2i ls with
      | Except.error c => Except.error c
      | Except.ok is => Except.ok (i :: is)

/-- `SupervisedNLPDataset.preprocess_label`:
`[self._label2idx[l] for l in label.split('|')]`. -/
def supervisedPreprocessLabel (l2i : List (String × ℕ)) (label : String) :
    Except String (List ℕ) :=
  mapLookup l2i (splitOnChar '|' label)

/-- `SequenceTagDataset.preprocess_label`:
`[self._label2idx[l] for l in label.split('|')[:self._max_length]]`. -/
def seqTagPreprocessLabel (l2i : List (String × ℕ)) (maxLen : Option ℕ)
    (label : String) : Except String (List ℕ) :=
  mapLookup l2i (listTruncate maxLen (splitOnChar '|' label))

/-- `ClassifyDataset.preprocess_label`:
`self._binarizer.fit_transform([label.split('|')])[0].tolist()` where the
binarizer is sklearn's `MultiLabelBinarizer` fixed to the `classes` list
`[idx2label[i] for i in range(K)]`.  With fixed classes the output vector is
indexed by `classes`, entry `i` being 1 iff `classes[i]` occurs among the
split components; input components not among `classes` are ignored by sklearn
(it emits a `UserWarning`, not an error). -/
def classifyPreprocessLabel (classes : List String) (label : String) : List ℕ :=
  classes.map (fun c => if c ∈ splitOnChar '|' label then 1 else 0)

/-! ## Epoch loop bookkeeping (`BaseModel._fit` / `BaseModel._one_epoch`)

`_fit` runs `for epoch in range(1, n_epochs + 1)`, calling `_before_epoch`
with `update_lr = (epoch % lr_update_epochs == 0 and epoch != 1)` before each
epoch; after an epoch it saves a checkpoint named `f'{checkpoint}-{epoch:04}'`
when `epoch % save_frequency == 0`.  `_one_epoch` accumulates `total_loss`
and `num_batch` over the batch iterator and returns `total_loss / num_batch`.
-/

/-- One `_before_epoch` call: the learning rate after the call, given the
trainer's rate `lr` on entry to epoch `epoch`. -/
def beforeEpochLr (lrUpdateFactor : ℚ) (lrUpdateEpochs : ℕ) (epoch : ℕ) (lr : ℚ) : ℚ :=
  if epoch % lrUpdateEpochs = 0 ∧ epoch ≠ 1 then lr * lrUpdateFactor else lr

/-- The learning rate in effect while `_one_epoch` runs epoch `e` (1-indexed)
of `_fit` started with initial rate `lr`; `lrAtEpoch lr f u 0 = lr` is the
rate before the first epoch. -/
def lrAtEpoch (lr lrUpdateFactor : ℚ) (lrUpdateEpochs : ℕ) : ℕ → ℚ
  | 0 => lr
  | e + 1 => beforeEpochLr lrUpdateFactor lrUpdateEpochs (e + 1)
      (lrAtEpoch lr lrUpdateFactor lrUpdateEpochs e)

/-- The value `_one_epoch` returns, as a function of the per-batch normalized
losses it accumulated; with zero batches the final division is a Python
`ZeroDivisionError` (`total_loss` and `num_batch` are both the int 0). -/
def oneEpochAvgLoss (batchLosses : List ℚ) : Except String ℚ :=
  if batchLosses.length = 0 then Except.error "ZeroDivisionError"
  else Except.ok (batchLosses.sum / (batchLosses.length : ℚ))

/-- The 1-indexed epochs `range(1, n_epochs + 1)` that `_fit` runs. -/
def fitEpochs (nEpochs : ℕ) : List ℕ := List.range' 1 nEpochs

/-- The epochs after which `_fit` calls `self.save`, in order:
those with `epoch % save_frequency == 0`. -/
def savedEpochs (nEpochs saveFrequency : ℕ) : List ℕ :=
  (fitEpochs nEpochs).filter (fun e => e % saveFrequency == 0)

/-- Python format spec `{:04}`: pad the decimal representation with leading
zeros to a minimum width of 4. -/
def pad4 (s : String) : String := String.mk (List.replicate (4 - s.length) '0') ++ s

/-- The checkpoint path `f'{checkpoint}-{epoch:04}'`. -/
def savePath (ckpt : String) (epoch : ℕ) : String :=
  ckpt ++ "-" ++ pad4 (Nat.repr epoch)

/-- The checkpoint paths one `_fit` run writes, in order. -/
def checkpointPaths (ckpt : String) (nEpochs saveFrequency : ℕ) : List String :=
  (savedEpochs nEpochs saveFrequency).map (savePath ckpt)

/-! ## Gradient clipping (`BaseModel._clip_gradient`)

The code sums `(param.grad ** 2).sum()` over parameters whose gradient is
present (`grad is not None`), takes the square root, and — only when the norm
exceeds `clip` — multiplies every present gradient in place by
`clip / norm`.  Gradient tensors are flattened to `List ℝ`; an absent
gradient is `none`.
-/

/-- The accumulated squared global norm: parameters with `grad is None` are
skipped. -/
noncomputable def sumSqGrads : List (Option (List ℝ)) → ℝ
  | [] => 0
  | none :: rest => sumSqGrads rest
  | some g :: rest => (g.map (fun x => x ^ 2)).sum + sumSqGrads rest

/-- `BaseModel._clip_gradient` with threshold `c`: rescale every present
gradient by `c / norm` when `norm > c`, otherwise leave all gradients
untouched. -/
noncomputable def clipGradient (c : ℝ) (grads : List (Option (List ℝ))) :
    List (Option (List ℝ)) :=
  if c < Real.sqrt (sumSqGrads grads) then
    grads.map (Option.map (fun g => g.map (fun x => x * (c / Real.sqrt (sumSqGrads grads)))))
  else grads

/-! ## `InMemoryDataset`

`InMemoryDataset.__init__` stores
`self._record = ['\t'.join(row) for row in zip(text_list, label_list, *args)]`.
-/

/-- The first element of every sequence (one step of Python `zip`), `none` as
soon as one sequence is exhausted. -/
def headsOpt : List (List α) → Option (List α)
  | [] => some []
  | [] :: _ => none
  | (a :: _) :: rest => (headsOpt rest).map (fun hs => a :: hs)

/-- Python `zip(first, *rest)`: tuples until the shortest input is
exhausted. -/
def pyZip : List α → List (List α) → List (List α)
  | [], _ => []
  | a :: as, rest =>
    match headsOpt rest with
    | none => []
    | some hs => (a :: hs) :: pyZip as (rest.map List.tail)

/-- The `i`-th element of every sequence, defined when all are long enough. -/
def getAll (i : ℕ) : List (List α) → Option (List α)
  | [] => some []
  | l :: ls =>
    match l[i]?, getAll i ls with
    | some a, some as => some (a :: as)
    | _, _ => none

/-- `InMemoryDataset._record` built from `text_list`, `label_list` and the
extra field sequences `args`. -/
def inMemoryRecord (textList labels : List String) (args : List (List String)) :
    List String :=
  (pyZip textList (labels :: args)).map (joinChar '\t')

/-! ## Helper lemmas -/

lemma lexLeb_cons_iff (a b : Char) (as bs : List Char) :
    lexLeb (a :: as) (b :: bs) = true ↔
      a < b ∨ (a = b ∧ lexLeb as bs = true) := by
  simp only [lexLeb]
  split_ifs with h1 h2
  · simp [h1]
  · simp [h1, ne_of_gt h2]
  · have hab : a = b := le_antisymm (not_lt.mp h2) (not_lt.mp h1)
    simp [h1, hab]

instance : IsTotal String strLe where
  total s t := by
    unfold strLe
    generalize s.toList = l
    generalize t.toList = m
    induction l generalizing m with
    | nil => left; rfl
    | cons a as ih =>
      cases m with
      | nil => right; rfl
      | cons b bs =>
        rcases lt_trichotomy a b with h | h | h
        · left; simp [lexLeb, h]
        · subst h
          rcases ih bs with h2 | h2
          · left; simp [lexLeb, h2]
          · right; simp [lexLeb, h2]
        · right; simp [lexLeb, h, not_lt.mpr h.le, lt_irrefl]

instance : IsTrans String strLe where
  trans s t u := by
    unfold strLe
    generalize s.toList = l
    generalize t.toList = m
    generalize u.toList = n
    induction l generalizing m n with
    | nil => intro _ _; rfl
    | cons a as ih =>
      cases m with
      | nil => intro h; simp [lexLeb] at h
      | cons b bs =>
        cases n with
        | nil => intro _ h; simp [lexLeb] at h
        | cons c cs =>
          intro h1 h2
          rw [lexLeb_cons_iff] at h1 h2 ⊢
          rcases h1 with h1 | ⟨rfl, h1⟩
          · rcases h2 with h2 | ⟨rfl, h2⟩
            · exact Or.inl (lt_trans h1 h2)
            · exact Or.inl h1
          · rcases h2 with h2 | ⟨rfl, h2⟩
            · exact Or.inl h2
            · exact Or.inr ⟨rfl, ih bs cs h1 h2⟩

lemma labelList_nodup (rows : List String) : (labelList rows).Nodup :=
  ((List.perm_insertionSort strLe _).nodup_iff).mpr
    ((List.nodup_dedup _).filter _)

lemma labelList_sorted (rows : List String) : List.Sorted strLe (labelList rows) :=
  List.sorted_insertionSort strLe _

lemma mem_labelList (rows : List String) (s : String) :
    s ∈ labelList rows ↔ s ≠ "" ∧ s ∈ allLabelComponents rows := by
  rw [labelList, (List.perm_insertionSort strLe _).mem_iff]
  simp only [List.mem_filter, List.mem_dedup, bne_iff_ne, ne_eq]
  tauto

lemma lookup_zip_range' (L : List String) (hL : L.Nodup) (k i : ℕ) (s : String) :
    (L.zip (List.range' k L.length)).lookup s = some i ↔
      ∃ j, L[j]? = some s ∧ i = k + j := by
  induction L generalizing k with
  | nil => simp
  | cons a L ih =>
    rw [List.length_cons, List.range'_succ]
    by_cases hsa : s = a
    · subst hsa
      simp only [List.zip_cons_cons, List.lookup_cons, beq_self_eq_true]
      constructor
      · intro h
        exact ⟨0, by simp, by have := Option.some.inj h; omega⟩
      · rintro ⟨j, hj, rfl⟩
        cases j with
        | zero => simp
        | succ j =>
          exfalso
          rw [List.getElem?_cons_succ] at hj
          exact (List.nodup_cons.mp hL).1 (List.getElem?_mem hj)
    · have hba : (s == a) = false := beq_eq_false_iff_ne.mpr hsa
      simp only [List.zip_cons_cons, List.lookup_cons, hba]
      rw [ih (List.Nodup.of_cons hL) (k + 1)]
      constructor
      · rintro ⟨j, hj, rfl⟩
        exact ⟨j + 1, by simpa using hj, by omega⟩
      · rintro ⟨j, hj, hi⟩
        cases j with
        | zero =>
          exfalso
          rw [List.getElem?_cons_zero] at hj
          exact hsa (Option.some.inj hj).symm
        | succ j =>
          rw [List.getElem?_cons_succ] at hj
          exact ⟨j, hj, by omega⟩

lemma lookup_swap_zip_range' (L : List String) (k i : ℕ) (s : String) :
    ((L.zip (List.range' k L.length)).map (fun p => (p.2, p.1))).lookup i = some s ↔
      ∃ j, L[j]? = some s ∧ i = k + j := by
  induction L generalizing k with
  | nil => simp
  | cons a L ih =>
    rw [List.length_cons, List.range'_succ]
    by_cases hik : i = k
    · subst hik
      simp only [List.zip_cons_cons, List.map_cons, List.lookup_cons, beq_self_eq_true]
      constructor
      · intro h
        exact ⟨0, by simpa using h, by omega⟩
      · rintro ⟨j, hj, hij⟩
        have hj0 : j = 0 := by omega
        subst hj0
        rw [List.getElem?_cons_zero] at hj
        exact hj
    · have hba : (i == k) = false := beq_eq_false_iff_ne.mpr hik
      simp only [List.zip_cons_cons, List.map_cons, List.lookup_cons, hba]
      rw [ih (k + 1)]
      constructor
      · rintro ⟨j, hj, rfl⟩
        exact ⟨j + 1, by simpa using hj, by omega⟩
      · rintro ⟨j, hj, hij⟩
        cases j with
        | zero => omega
        | succ j =>
          rw [List.getElem?_cons_succ] at hj
          exact ⟨j, hj, by omega⟩

lemma mapLookup_error_of_mem (l2i : List (String × ℕ)) (xs : List String)
    (h : ∃ x ∈ xs, l2i.lookup x = none) :
    ∃ c, mapLookup l2i xs = Except.error c ∧ l2i.lookup c = none := by
  induction xs with
  | nil => simp at h
  | cons a xs ih =>
    cases ha : l2i.lookup a with
    | none => exact ⟨a, by simp [mapLookup, ha], ha⟩
    | some v =>
      have htail : ∃ x ∈ xs, l2i.lookup x = none := by
        rcases h with ⟨x, hx, hlx⟩
        rcases List.mem_cons.mp hx with rfl | hx2
        · rw [ha] at hlx; cases hlx
        · exact ⟨x, hx2, hlx⟩
      obtain ⟨c, hc1, hc2⟩ := ih htail
      exact ⟨c, by simp [mapLookup, ha, hc1], hc2⟩

lemma succ_update_exponent (u e : ℕ) (hu : 1 ≤ u) :
    (e + 1) / u - 1 / u =
      (e / u - 1 / u) + (if (e + 1) % u = 0 ∧ e + 1 ≠ 1 then 1 else 0) := by
  rcases eq_or_lt_of_le hu with h1 | h2
  · rw [← h1]
    simp only [Nat.div_one, Nat.mod_one, true_and]
    split_ifs with h <;> omega
  · have h1u : 1 / u = 0 := Nat.div_eq_of_lt h2
    rw [Nat.succ_div]
    by_cases hd : u ∣ e + 1
    · have hm : (e + 1) % u = 0 := Nat.dvd_iff_mod_eq_zero.mp hd
      have hne : e + 1 ≠ 1 := by
        intro h
        rw [h] at hd
        have := Nat.le_of_dvd one_pos hd
        omega
      rw [if_pos hd, if_pos ⟨hm, hne⟩, h1u]
      generalize e / u = q
      omega
    · have hm : ¬((e + 1) % u = 0 ∧ e + 1 ≠ 1) := by
        intro h
        exact hd (Nat.dvd_iff_mod_eq_zero.mpr h.1)
      rw [if_neg hd, if_neg hm, h1u]
      generalize e / u = q
      omega

lemma foldr_min_zero (l : List ℕ) : l.foldr min 0 = 0 := by
  induction l with
  | nil => rfl
  | cons a l ih => simp [ih]

lemma foldr_min_eq_zero_of_mem {l : List ℕ} (h : 0 ∈ l) (init : ℕ) :
    l.foldr min init = 0 := by
  induction l with
  | nil => simp at h
  | cons a l ih =>
    rcases List.mem_cons.mp h with rfl | h2
    · simp
    · simp [ih h2]

lemma foldr_min_shift (lens : List ℕ) (hpos : ∀ x ∈ lens, 1 ≤ x) (n : ℕ) :
    (lens.map (fun x => x - 1)).foldr min n + 1 = lens.foldr min (n + 1) := by
  induction lens generalizing n with
  | nil => rfl
  | cons x l ih =>
    have hx : 1 ≤ x := hpos x (List.mem_cons_self x l)
    have ihl := ih (fun y hy => hpos y (List.mem_cons_of_mem x hy)) n
    simp only [List.map_cons, List.foldr_cons]
    omega

lemma headsOpt_none_iff (ls : List (List α)) : headsOpt ls = none ↔ [] ∈ ls := by
  induction ls with
  | nil => simp [headsOpt]
  | cons l ls ih =>
    cases l with
    | nil => simp [headsOpt]
    | cons a l =>
      cases hh : headsOpt ls with
      | none => simp [headsOpt, hh, ih.mp hh]
      | some hs =>
        have : [] ∉ ls := fun hmem => by
          rw [ih.mpr hmem] at hh
          cases hh
        simp [headsOpt, hh, this]

lemma getAll_none_of_nil_mem (i : ℕ) (ls : List (List α)) (h : [] ∈ ls) :
    getAll i ls = none := by
  induction ls with
  | nil => simp at h
  | cons l ls ih =>
    rcases List.mem_cons.mp h with rfl | h2
    · simp [getAll]
    · rw [getAll, ih h2]
      cases l[i]? <;> rfl

lemma getAll_zero (ls : List (List α)) : getAll 0 ls = headsOpt ls := by
  induction ls with
  | nil => rfl
  | cons l ls ih =>
    cases l with
    | nil =>
      rw [getAll, headsOpt]
      cases getAll 0 ls <;> rfl
    | cons a l =>
      rw [getAll, headsOpt, ← ih, List.getElem?_cons_zero]
      cases getAll 0 ls <;> rfl

lemma tail_getElem? (l : List α) (i : ℕ) : l.tail[i]? = l[i + 1]? := by
  cases l <;> simp

lemma getAll_tails (i : ℕ) (ls : List (List α)) :
    getAll i (ls.map List.tail) = getAll (i + 1) ls := by
  induction ls with
  | nil => rfl
  | cons l ls ih =>
    rw [List.map_cons, getAll, getAll, tail_getElem?, ih]

lemma pyZip_length (first : List α) (rest : List (List α)) :
    (pyZip first rest).length = (rest.map List.length).foldr min first.length := by
  induction first generalizing rest with
  | nil => simp [pyZip, foldr_min_zero]
  | cons a as ih =>
    cases h : headsOpt rest with
    | none =>
      have hmem : [] ∈ rest := (headsOpt_none_iff rest).mp h
      have h0 : 0 ∈ rest.map List.length :=
        List.mem_map.mpr ⟨[], hmem, rfl⟩
      rw [pyZip, h]
      simp [foldr_min_eq_zero_of_mem h0]
    | some hs =>
      have hne : [] ∉ rest := fun hmem => by
        rw [(headsOpt_none_iff rest).mpr hmem] at h
        cases h
      have hpos : ∀ x ∈ rest.map List.length, 1 ≤ x := by
        intro x hx
        obtain ⟨l, hl, rfl⟩ := List.mem_map.mp hx
        cases l with
        | nil => exact absurd hl hne
        | cons b bs => simp
      rw [pyZip, h]
      simp only [List.length_cons, ih, List.map_map]
      have : (rest.map (List.length ∘ List.tail)) = (rest.map List.length).map (fun x => x - 1) := by
        rw [List.map_map]
        apply List.map_congr_left
        intro l _
        simp [List.length_tail]
      rw [this, foldr_min_shift (rest.map List.length) hpos as.length]

lemma pyZip_getElem? (first : List α) (rest : List (List α)) (i : ℕ) :
    (pyZip first rest)[i]? =
      (first[i]?).bind (fun a => (getAll i rest).map (fun hs => a :: hs)) := by
  induction first generalizing rest i with
  | nil => simp [pyZip]
  | cons a as ih =>
    cases h : headsOpt rest with
    | none =>
      have hg : getAll i rest = none :=
        getAll_none_of_nil_mem i rest ((headsOpt_none_iff rest).mp h)
      rw [pyZip, h, hg]
      cases hx : (a :: as)[i]? <;> simp [hx]
    | some hs =>
      cases i with
      | zero =>
        rw [pyZip, h]
        simp [getAll_zero, h]
      | succ i =>
        rw [pyZip, h]
        simp only [List.getElem?_cons_succ, ih, getAll_tails]

/-! ## Claim theorems -/

/-- C1 (counterexample): with `lr = 0.01`, `lr_update_factor = 0.5`,
`lr_update_epochs = 2`, the code already multiplies the rate at the start of
epoch 2 (`2 % 2 == 0 and 2 != 1`), so the rate in effect while running epoch 2
is `0.005`, not the `0.01 = lr * factor^⌊(2-1)/2⌋` the claim asserts. -/
theorem lr_schedule_claim_counterexample :
    lrAtEpoch (1/100) (1/2) 2 2 ≠ (1/100 : ℚ) * (1/2) ^ ((2 - 1) / 2 : ℕ) := by
  have h : lrAtEpoch (1/100) (1/2) 2 2 = (1/100 : ℚ) * (1/2) := by
    simp [lrAtEpoch, beforeEpochLr]
  rw [h]
  norm_num

/-- C1 (amended): the learning rate in effect while running epoch `e` of
`_fit` equals `lr * lr_update_factor ^ (⌊e/u⌋ - ⌊1/u⌋)` where
`u = lr_update_epochs ≥ 1`: the decay is applied at the start of every epoch
`e` with `e % u == 0` except epoch 1, so with `lr = 0.01`, `factor = 0.5`,
`u = 2` the rate is `0.01` during epoch 1, `0.005` during epochs 2–3,
`0.0025` during epochs 4–5, and `0.00125` during epoch 6. -/
theorem lr_schedule_after_update (lr f : ℚ) (u e : ℕ) (hu : 1 ≤ u) :
    lrAtEpoch lr f u e = lr * f ^ (e / u - 1 / u) := by
  induction e with
  | zero => simp [lrAtEpoch, Nat.zero_div]
  | succ e ih =>
    have hexp := succ_update_exponent u e hu
    simp only [lrAtEpoch, beforeEpochLr]
    split_ifs with h
    · rw [ih, hexp, if_pos h, pow_succ, mul_assoc]
    · rw [ih, hexp, if_neg h, add_zero]

/-- Witness for C1's amended theorem at `lr = 0.01`, `factor = 0.5`, `u = 2`,
epoch 5. -/
theorem lr_schedule_after_update_witness :
    1 ≤ 2 ∧ lrAtEpoch (1/100) (1/2) 2 5 = (1/100 : ℚ) * (1/2) ^ ((5 / 2 : ℕ) - 1 / 2) :=
  ⟨by decide, lr_schedule_after_update (1/100) (1/2) 2 5 (by decide)⟩

/-- C2 (counterexample): with the default character segmenter and
`max_length = 1`, the corpus `["ab\tx"]` puts the token `"b"` into the
vocabulary even though the segmentation of the truncated text `"a"` never
produces it, and records text length 2 where `preprocess_text` encodes 1
token — build-time processing does NOT truncate. -/
theorem truncation_consistency_counterexample :
    ("b" ∈ vocabTokens charSegmenter ["ab\tx"]) ∧
    "b" ∉ preprocessTextTokens charSegmenter (some 1) (rowText "ab\tx") ∧
    buildTextLengths charSegmenter ["ab\tx"] = [2] ∧
    (preprocessTextTokens charSegmenter (some 1) (rowText "ab\tx")).length = 1 := by
  decide

/-- C2 (amended): truncation to `max_length` is applied only at encode time.
At vocabulary-build time the segmenter runs on the untruncated text, so the
vocabulary contains exactly the distinct tokens of the full texts and the
recorded per-row lengths are the token counts of the full texts, while
`preprocess_text` encodes `segmenter(text[:max_length])`. -/
theorem vocab_built_from_untruncated_text (seg : String → List String)
    (rows : List String) (maxLen : Option ℕ) :
    (∀ t, t ∈ vocabTokens seg rows ↔ ∃ r ∈ rows, t ∈ seg (rowText r)) ∧
    buildTextLengths seg rows = rows.map (fun r => (seg (rowText r)).length) ∧
    (∀ text, preprocessTextTokens seg maxLen text = seg (strTruncate maxLen text)) := by
  refine ⟨?_, rfl, fun _ => rfl⟩
  intro t
  simp [vocabTokens, buildTokenList, List.mem_dedup, List.mem_flatMap]

/-- C3 (counterexample): with label index `{"a": 0}` the classification
variant encodes `"a|b"` — whose component `"b"` is not in the index — without
any failure, to the same vector as `"a"` alone: sklearn's binarizer silently
drops unknown classes instead of raising. -/
theorem unknown_label_classify_counterexample :
    classifyPreprocessLabel ["a"] "a|b" = [1] ∧
    classifyPreprocessLabel ["a"] "a|b" = classifyPreprocessLabel ["a"] "a" := by
  decide

/-- C3 (amended): a pipe-delimited component missing from the label index is
a fatal `KeyError` for `SupervisedNLPDataset` (always) and for
`SequenceTagDataset` (whenever a missing component survives the
`[:max_length]` truncation), but `ClassifyDataset` never fails: it encodes
exactly as if the unknown components were removed from the label string. -/
theorem unknown_label_error_behavior (l2i : List (String × ℕ)) (classes : List String)
    (label : String) (maxLen : Option ℕ)
    (h : ∃ c ∈ splitOnChar '|' label, l2i.lookup c = none) :
    (∃ c, supervisedPreprocessLabel l2i label = Except.error c ∧ l2i.lookup c = none) ∧
    ((∃ c ∈ listTruncate maxLen (splitOnChar '|' label), l2i.lookup c = none) →
      ∃ c, seqTagPreprocessLabel l2i maxLen label = Except.error c ∧ l2i.lookup c = none) ∧
    classifyPreprocessLabel classes label =
      classes.map (fun c =>
        if c ∈ (splitOnChar '|' label).filter (fun x => decide (x ∈ classes)) then 1 else 0) := by
  refine ⟨mapLookup_error_of_mem l2i _ h, fun h2 => mapLookup_error_of_mem l2i _ h2, ?_⟩
  apply List.map_congr_left
  intro c hc
  have hiff : (c ∈ (splitOnChar '|' label).filter (fun x => decide (x ∈ classes))) ↔
      c ∈ splitOnChar '|' label := by
    simp [List.mem_filter, hc]
  rw [if_congr hiff rfl rfl]

/-- Witness for C3's amended theorem: index `{"a": 0}`, label `"a|b"`,
`max_length = 100`. -/
theorem unknown_label_error_behavior_witness :
    (∃ c ∈ splitOnChar '|' "a|b", ([("a", 0)] : List (String × ℕ)).lookup c = none) ∧
    (∃ c, supervisedPreprocessLabel [("a", 0)] "a|b" = Except.error c ∧
      ([("a", 0)] : List (String × ℕ)).lookup c = none) := by
  have h : ∃ c ∈ splitOnChar '|' "a|b", ([("a", 0)] : List (String × ℕ)).lookup c = none :=
    ⟨"b", by decide, by decide⟩
  exact ⟨h, (unknown_label_error_behavior [("a", 0)] ["a"] "a|b" (some 100) h).1⟩

/-- C4: for `clip > 0`: a global norm ≤ clip (in particular a zero norm)
leaves every gradient exactly unchanged; a norm > clip multiplies every
present gradient entrywise by exactly `clip / norm`; absent gradients are
skipped by the norm accumulation and preserved (never treated as zero). -/
theorem clip_gradient_correct (c : ℝ) (grads : List (Option (List ℝ))) (hc : 0 < c) :
    (Real.sqrt (sumSqGrads grads) ≤ c → clipGradient c grads = grads) ∧
    (c < Real.sqrt (sumSqGrads grads) →
      clipGradient c grads =
        grads.map (Option.map (fun g =>
          g.map (fun x => x * (c / Real.sqrt (sumSqGrads grads)))))) ∧
    (sumSqGrads grads = 0 → clipGradient c grads = grads) ∧
    (∀ p s, sumSqGrads (p ++ none :: s) = sumSqGrads (p ++ s)) ∧
    (∀ i : ℕ, grads[i]? = some none → (clipGradient c grads)[i]? = some none) := by
  refine ⟨?_, ?_, ?_, ?_, ?_⟩
  · intro h
    rw [clipGradient, if_neg (not_lt.mpr h)]
  · intro h
    rw [clipGradient, if_pos h]
  · intro h
    rw [clipGradient, if_neg]
    rw [h, Real.sqrt_zero]
    exact not_lt.mpr hc.le
  · intro p s
    induction p with
    | nil => simp [sumSqGrads]
    | cons a p ih => cases a <;> simp [sumSqGrads, ih]
  · intro i h
    rw [clipGradient]
    split_ifs
    · rw [List.getElem?_map, h]
      rfl
    · exact h

/-- Witness for C4 at `clip = 5` and gradients `[3,4]` (norm exactly 5, the
boundary case) plus one absent gradient. -/
theorem clip_gradient_correct_witness :
    (0 : ℝ) < 5 ∧ clipGradient 5 [some [3, 4], none] = [some [3, 4], none] := by
  have hsum : sumSqGrads [some [3, 4], none] = 25 := by
    norm_num [sumSqGrads]
  have hle : Real.sqrt (sumSqGrads [some [3, 4], none]) ≤ 5 := by
    rw [hsum, show (25 : ℝ) = 5 ^ 2 by norm_num, Real.sqrt_sq (by norm_num : (0:ℝ) ≤ 5)]
  exact ⟨by norm_num, (clip_gradient_correct 5 [some [3, 4], none] (by norm_num)).1 hle⟩

/-- C5: for every corpus scanned without an injected label index, `label2idx`
maps the distinct non-empty pipe-delimited label strings, sorted lexically,
onto the contiguous id range `0..K-1`; the empty string is never a key, and
`idx2label` is the inverse mapping. -/
theorem label_index_sorted_contiguous (rows : List String)
    (hrows : ∀ r ∈ rows, 2 ≤ (rowFields r).length) :
    (label2idxOf rows).map Prod.snd = List.range (labelList rows).length ∧
    List.Sorted strLe ((label2idxOf rows).map Prod.fst) ∧
    ((label2idxOf rows).map Prod.fst).Nodup ∧
    (∀ s, (∃ i, (s, i) ∈ label2idxOf rows) ↔ s ≠ "" ∧ s ∈ allLabelComponents rows) ∧
    (∀ s i, (label2idxOf rows).lookup s = some i ↔ (idx2labelOf rows).lookup i = some s) := by
  have hfst : (label2idxOf rows).map Prod.fst = labelList rows :=
    List.map_fst_zip _ _ (by rw [List.length_range])
  refine ⟨List.map_snd_zip _ _ (by rw [List.length_range]), ?_, ?_, ?_, ?_⟩
  · rw [hfst]
    exact labelList_sorted rows
  · rw [hfst]
    exact labelList_nodup rows
  · intro s
    constructor
    · rintro ⟨i, hmem⟩
      exact (mem_labelList rows s).mp (List.of_mem_zip hmem).1
    · intro hs
      have hmem : s ∈ labelList rows := (mem_labelList rows s).mpr hs
      obtain ⟨j, hj, hjs⟩ := List.mem_iff_getElem.mp hmem
      have hjlen : j < (label2idxOf rows).length := by
        simpa [label2idxOf, List.length_zip, List.length_range] using hj
      have hv : (label2idxOf rows).get ⟨j, hjlen⟩ = (s, j) := by
        simp only [label2idxOf, List.get_eq_getElem]
        rw [List.getElem_zip, List.getElem_range]
        simp [hjs]
      exact ⟨j, hv ▸ List.get_mem _ _ hjlen⟩
  · intro s i
    rw [label2idxOf, idx2labelOf, label2idxOf, List.range_eq_range',
      lookup_zip_range' (labelList rows) (labelList_nodup rows) 0 i s,
      lookup_swap_zip_range' (labelList rows) 0 i s]

/-- Witness for C5 on a concrete three-row corpus (one row with an empty
label field, exercising `del label_counter['']`). -/
theorem label_index_sorted_contiguous_witness :
    label2idxOf ["t\t2|1", "u\t1|3", "v\t"] = [("1", 0), ("2", 1), ("3", 2)] ∧
    (∀ s i, (label2idxOf ["t\t2|1", "u\t1|3", "v\t"]).lookup s = some i ↔
      (idx2labelOf ["t\t2|1", "u\t1|3", "v\t"]).lookup i = some s) :=
  ⟨by decide,
    (label_index_sorted_contiguous ["t\t2|1", "u\t1|3", "v\t"] (by decide)).2.2.2.2⟩

/-- C6: constructing a dataset over an empty row source succeeds, with an
empty label index and a zero-size vocabulary; training over it is then
rejected by the loop: with a batch source yielding zero batches,
`_one_epoch`'s final `total_loss / num_batch` is a `ZeroDivisionError`. -/
theorem empty_dataset_build_and_training :
    label2idxOf [] = [] ∧ idx2labelOf [] = [] ∧
    vocabTokens charSegmenter [] = [] ∧ buildTextLengths charSegmenter [] = [] ∧
    oneEpochAvgLoss [] = Except.error "ZeroDivisionError" :=
  ⟨rfl, rfl, rfl, rfl, rfl⟩

/-- C7: for a `ClassifyDataset` built from a corpus, `preprocess_label` on a
label string whose components are all indexed returns a vector of length
exactly K with entries in {0,1}, entry `i` being 1 iff the label with id `i`
occurs among the components; hence two label strings with the same component
set (e.g. `"1|2"` and `"2|1"`) encode to the same vector. -/
theorem classify_multi_hot (rows : List String)
    (hrows : ∀ r ∈ rows, 2 ≤ (rowFields r).length) (label : String)
    (hknown : ∀ c ∈ splitOnChar '|' label, c ∈ labelList rows) :
    (classifyPreprocessLabel (labelList rows) label).length = (labelList rows).length ∧
    (∀ v ∈ classifyPreprocessLabel (labelList rows) label, v = 0 ∨ v = 1) ∧
    (∀ lab i, (label2idxOf rows).lookup lab = some i →
      (classifyPreprocessLabel (labelList rows) label)[i]? =
        some (if lab ∈ splitOnChar '|' label then 1 else 0)) ∧
    (∀ label2, (∀ c, c ∈ splitOnChar '|' label ↔ c ∈ splitOnChar '|' label2) →
      classifyPreprocessLabel (labelList rows) label =
        classifyPreprocessLabel (labelList rows) label2) := by
  refine ⟨by simp [classifyPreprocessLabel], ?_, ?_, ?_⟩
  · intro v hv
    rw [classifyPreprocessLabel, List.mem_map] at hv
    obtain ⟨c, _, hc⟩ := hv
    by_cases hm : c ∈ splitOnChar '|' label
    · right
      rw [← hc]
      simp [hm]
    · left
      rw [← hc]
      simp [hm]
  · intro lab i hlk
    rw [label2idxOf, List.range_eq_range',
      lookup_zip_range' _ (labelList_nodup rows) 0 i lab] at hlk
    obtain ⟨j, hj, hij⟩ := hlk
    have hi : i = j := by omega
    subst hi
    rw [classifyPreprocessLabel, List.getElem?_map, hj]
    rfl
  · intro label2 hsame
    apply List.map_congr_left
    intro c _
    rw [if_congr (hsame c) rfl rfl]

/-- Witness for C7 on the corpus `["t\t1|2", "u\t3"]` (labels 1,2,3), with
the order-invariance instantiated at `"1|2"` vs `"2|1"`. -/
theorem classify_multi_hot_witness :
    classifyPreprocessLabel (labelList ["t\t1|2", "u\t3"]) "2|1" = [1, 1, 0] ∧
    classifyPreprocessLabel (labelList ["t\t1|2", "u\t3"]) "1|2" =
      classifyPreprocessLabel (labelList ["t\t1|2", "u\t3"]) "2|1" := by
  have e1 : splitOnChar '|' "1|2" = ["1", "2"] := by decide
  have e2 : splitOnChar '|' "2|1" = ["2", "1"] := by decide
  have hsame : ∀ c, c ∈ splitOnChar '|' "1|2" ↔ c ∈ splitOnChar '|' "2|1" := by
    intro c
    rw [e1, e2]
    constructor <;> intro h <;> (simp at h ⊢) <;> tauto
  exact ⟨by decide,
    (classify_multi_hot ["t\t1|2", "u\t3"] (by decide) "1|2" (by decide)).2.2.2
      "2|1" hsame⟩

/-- C9 (counterexample): a `SequenceTagDataset` constructed with
`max_length = 0` truncates `''.split('|') == ['']` to `[]` before any index
lookup, so encoding the empty label field returns `[]` with no `KeyError`,
contradicting the claim for this dataset. -/
theorem empty_label_seqtag_counterexample :
    seqTagPreprocessLabel [("a", 0)] (some 0) "" = Except.ok [] := rfl

/-- C9 (amended): provided the label index has no empty-string key (always
true of a corpus-built index) and — for the sequence-tagging variant —
`max_length` is `None` or at least 1, encoding an empty label field raises
`KeyError('')` in `SupervisedNLPDataset` and `SequenceTagDataset` but
returns the all-zero vector, without error, in `ClassifyDataset` (with
`max_length = 0` the sequence tagger instead returns `[]` without error). -/
theorem empty_label_encoding_by_variant (l2i : List (String × ℕ))
    (classes : List String) (maxLen : Option ℕ)
    (hkey : l2i.lookup "" = none)
    (hml : maxLen = none ∨ ∃ n, maxLen = some n ∧ 1 ≤ n)
    (hcl : "" ∉ classes) :
    supervisedPreprocessLabel l2i "" = Except.error "" ∧
    seqTagPreprocessLabel l2i maxLen "" = Except.error "" ∧
    classifyPreprocessLabel classes "" = List.replicate classes.length 0 := by
  have hsplit : splitOnChar '|' "" = [""] := rfl
  refine ⟨?_, ?_, ?_⟩
  · rw [supervisedPreprocessLabel, hsplit]
    simp [mapLookup, hkey]
  · rw [seqTagPreprocessLabel, hsplit]
    rcases hml with rfl | ⟨n, rfl, hn⟩
    · simp [listTruncate, mapLookup, hkey]
    · cases n with
      | zero => omega
      | succ n => simp [listTruncate, mapLookup, hkey]
  · rw [classifyPreprocessLabel, hsplit]
    have hz : ∀ c ∈ classes, (if c ∈ [""] then (1 : ℕ) else 0) = 0 := by
      intro c hc
      rw [if_neg]
      simp only [List.mem_singleton]
      exact fun h => hcl (h ▸ hc)
    rw [List.map_congr_left hz]
    simp

/-- Witness for C9's amended theorem with index `{"a": 0}`, classes `["a"]`,
`max_length = 100`. -/
theorem empty_label_encoding_by_variant_witness :
    (([("a", 0)] : List (String × ℕ)).lookup "" = none) ∧
    supervisedPreprocessLabel [("a", 0)] "" = Except.error "" ∧
    seqTagPreprocessLabel [("a", 0)] (some 100) "" = Except.error "" ∧
    classifyPreprocessLabel ["a"] "" = List.replicate 1 0 := by
  have h := empty_label_encoding_by_variant [("a", 0)] ["a"] (some 100) (by decide)
    (Or.inr ⟨100, rfl, by decide⟩) (by decide)
  exact ⟨by decide, h.1, h.2.1, h.2.2⟩

/-- C8: with a non-None checkpoint prefix, `save` runs exactly after the
epochs `e` with `e % save_frequency == 0` (and no others), at path
`'{prefix}-{epoch}'` with the epoch zero-padded to 4 digits; with
`save_frequency = 2`, `n_epochs = 5` the checkpoints are exactly those of
epochs 2 and 4. -/
theorem checkpoint_cadence (ckpt : String) (nEpochs saveFrequency : ℕ)
    (hf : 1 ≤ saveFrequency) :
    (∀ e, e ∈ savedEpochs nEpochs saveFrequency ↔
      1 ≤ e ∧ e ≤ nEpochs ∧ e % saveFrequency = 0) ∧
    (∀ e, (savePath ckpt e).length = ckpt.length + 1 + max 4 (Nat.repr e).length) ∧
    checkpointPaths ckpt 5 2 = [ckpt ++ "-" ++ "0002", ckpt ++ "-" ++ "0004"] := by
  refine ⟨?_, ?_, ?_⟩
  · intro e
    simp only [savedEpochs, fitEpochs, List.mem_filter, List.mem_range'_1, beq_iff_eq]
    constructor
    · rintro ⟨⟨h1, h2⟩, h3⟩
      exact ⟨h1, by omega, h3⟩
    · rintro ⟨h1, h2, h3⟩
      exact ⟨⟨h1, by omega⟩, h3⟩
  · intro e
    simp only [savePath, pad4, String.length_append, String.length_mk,
      List.length_replicate]
    have hdash : ("-" : String).length = 1 := rfl
    omega
  · have h : savedEpochs 5 2 = [2, 4] := by decide
    have h2 : pad4 (Nat.repr 2) = "0002" := by decide
    have h4 : pad4 (Nat.repr 4) = "0004" := by decide
    rw [checkpointPaths, h]
    simp [savePath, h2, h4]

/-- Witness for C8 with prefix `"ckpt"`, `n_epochs = 5`, `save_frequency = 2`. -/
theorem checkpoint_cadence_witness :
    1 ≤ 2 ∧ checkpointPaths "ckpt" 5 2 = ["ckpt" ++ "-" ++ "0002", "ckpt" ++ "-" ++ "0004"] :=
  ⟨by decide, (checkpoint_cadence "ckpt" 5 2 (by decide)).2.2⟩

/-- C10: `InMemoryDataset(text_list, label_list, *args)` has length equal to
the minimum of the input sequence lengths — mismatched inputs are silently
truncated to the shortest, never rejected — and item `i` is the `i`-th fields
of the inputs joined by tab characters. -/
theorem in_memory_dataset_zip (textList labels : List String)
    (args : List (List String)) :
    (inMemoryRecord textList labels args).length =
      ((labels :: args).map List.length).foldr min textList.length ∧
    (∀ i : ℕ, (inMemoryRecord textList labels args)[i]? =
      (textList[i]?).bind (fun t =>
        (getAll i (labels :: args)).map (fun fs => joinChar '\t' (t :: fs)))) := by
  constructor
  · rw [inMemoryRecord, List.length_map, pyZip_length]
  · intro i
    rw [inMemoryRecord, List.getElem?_map, pyZip_getElem?]
    cases textList[i]? <;> cases getAll i (labels :: args) <;> simp

end Sknlp
